import Mathlib

/-!
Shallow embedding of the compilation-host augmentation layer
(`packages/angular/plugins/angular-vite-compiler/host.ts`).

The five augmentation functions of the source are modelled as pure
functions.  Mutable collaborators (the dependency graph `Map`, the source
cache `Map`, the `NgccProcessor`) become explicit state threaded through
the wrapped operations; calls to external collaborators (`ngcc.processModule`,
the base host's operations) are recorded in logs so that claims about call
counts and argument forwarding are statable.

External collaborators not present in the repository slice (the `crypto`
digest, `ts.resolveModuleName`, `ts.resolveTypeReferenceDirective`,
the base host's own operations) are parameters of the definitions.
-/

namespace NgHost

/-- Modelled from the spec: the path-normalization utility of `./path`
(not under `src/`), which "maps platform-specific separators to one
canonical form": every backslash separator becomes a forward slash. -/
def normalizePath (path : String) : String :=
  String.mk (path.data.map (fun c => if c = '\\' then '/' else c))

/-- `ts.ResolvedModule`: a successful module-name resolution, carrying the
resolved target file path (`resolvedFileName`). -/
structure ResolvedModule where
  resolvedFileName : String
deriving DecidableEq, Repr

/-- `ts.ResolvedTypeReferenceDirective`: a successful type-reference
resolution.  Only its identity matters to the wrappers, which treat it as
an opaque value handed to `ngcc.processModule`. -/
structure ResolvedTypeRef where
  resolvedFileName : String
deriving DecidableEq, Repr

/-- A JavaScript `Map` (string keys), modelled as an association list.
`mapGet` is `Map.prototype.get` (`none` when `has` is false). -/
def mapGet {α : Type} : List (String × α) → String → Option α
  | [], _ => none
  | (k, v) :: rest, key => if k = key then some v else mapGet rest key

/-- `Map.prototype.set`: overwrite the entry for `key` in place, or append
a fresh entry when none exists. -/
def mapSet {α : Type} : List (String × α) → String → α → List (String × α)
  | [], key, value => [(key, value)]
  | (k, v) :: rest, key, value =>
    if k = key then (key, value) :: rest else (k, v) :: mapSet rest key value

/-- A JavaScript `Set` of strings, modelled as a duplicate-free-by-use list:
`Set.prototype.add` is a no-op on an element already present. -/
def addToSet (s : List String) (x : String) : List String :=
  if x ∈ s then s else s ++ [x]

/-- The dependency graph: `Map<string, Set<string>>` from
`augmentHostWithDependencyCollection`. -/
abbrev DepGraph := List (String × List String)

/-- The body of the edge-recording block shared by both branches of
`augmentHostWithDependencyCollection`: fetch the containing file's
dependency set; `add` into it when present (a `Set` object is truthy even
when empty), otherwise install a fresh one-element set. -/
def recordDependency (dependencies : DepGraph) (containingFilePath : String)
    (resolvedFileName : String) : DepGraph :=
  match mapGet dependencies containingFilePath with
  | some containingFileDependencies =>
    mapSet dependencies containingFilePath (addToSet containingFileDependencies resolvedFileName)
  | none => mapSet dependencies containingFilePath [resolvedFileName]

/-- The `for (const result of results)` loop of the batched branch of
`augmentHostWithDependencyCollection`: record an edge for every present
result, skip absent ones. -/
def recordResults (containingFilePath : String) :
    List (Option ResolvedModule) → DepGraph → DepGraph
  | [], dependencies => dependencies
  | result :: rest, dependencies =>
    match result with
    | some r =>
      recordResults containingFilePath rest
        (recordDependency dependencies containingFilePath r.resolvedFileName)
    | none => recordResults containingFilePath rest dependencies

/-- The wrapped `resolveModuleNames` installed by
`augmentHostWithDependencyCollection` when the base host already has one:
call the base with the untouched arguments, record an edge from the
normalized containing path for every present result, and return the base
results unchanged.  `ρ` stands for the pass-through `...parameters`. -/
def depCollectResolveModuleNames {ρ : Type}
    (baseResolveModuleNames : List String → String → ρ → List (Option ResolvedModule))
    (dependencies : DepGraph) (moduleNames : List String) (containingFile : String)
    (parameters : ρ) : List (Option ResolvedModule) × DepGraph :=
  let results := baseResolveModuleNames moduleNames containingFile parameters
  let containingFilePath := normalizePath containingFile
  (results, recordResults containingFilePath results dependencies)

/-- The fallback `resolveModuleNames` installed by
`augmentHostWithDependencyCollection` when the base host has none: drive
`ts.resolveModuleName` once per name, forwarding the augmentation's
`moduleResolutionCache`, recording an edge for each present result.
`ρ` bundles the `options`/`host`/`redirectedReference` arguments the
closure forwards unchanged; `κ` is the resolution-cache type. -/
def depCollectResolveModuleNamesFallback {ρ κ : Type}
    (tsResolveModuleName : String → String → ρ → Option κ → Option ResolvedModule)
    (dependencies : DepGraph) (moduleResolutionCache : Option κ)
    (moduleNames : List String) (containingFile : String) (options : ρ) :
    List (Option ResolvedModule) × DepGraph :=
  match moduleNames with
  | [] => ([], dependencies)
  | name :: rest =>
    let result := tsResolveModuleName name containingFile options moduleResolutionCache
    let dependencies1 :=
      match result with
      | some r => recordDependency dependencies (normalizePath containingFile) r.resolvedFileName
      | none => dependencies
    let step := depCollectResolveModuleNamesFallback tsResolveModuleName dependencies1
      moduleResolutionCache rest containingFile options
    (result :: step.1, step.2)

/-- `ts.SourceFile`: raw text plus the optional `version` field the
versioner attaches. -/
structure SourceFile where
  text : String
  version : Option String
deriving DecidableEq, Repr

/-- The source cache of `augmentHostWithCaching`: a `Map` from raw file
path to the cached source file. -/
abbrev SourceCache := List (String × SourceFile)

/-- The wrapped `getSourceFile` installed by `augmentHostWithCaching`.
Returns the (nullable) file, the updated cache, and the log of delegate
invocations, each recorded as the `(fileName, shouldCreateNewSourceFile)`
pair actually passed to the base host.  On a hit (`!shouldCreateNewSourceFile
&& cache.has(fileName)`) the cached handle is returned without any delegate
call; otherwise the delegate is invoked with `shouldCreateNewSourceFile`
rewritten to `true`, and a present result is stored.  `α`, `ε`, `ρ` stand
for `languageVersion`, `onError` and the pass-through `...parameters`. -/
def cachedGetSourceFile {α ε ρ : Type}
    (baseGetSourceFile : String → α → ε → Bool → ρ → Option SourceFile)
    (cache : SourceCache) (fileName : String) (languageVersion : α) (onError : ε)
    (shouldCreateNewSourceFile : Bool) (parameters : ρ) :
    Option SourceFile × SourceCache × List (String × Bool) :=
  if shouldCreateNewSourceFile = false ∧ (mapGet cache fileName).isSome then
    (mapGet cache fileName, cache, [])
  else
    let file := baseGetSourceFile fileName languageVersion onError true parameters
    match file with
    | some f => (some f, mapSet cache fileName f, [(fileName, true)])
    | none => (none, cache, [(fileName, true)])

/-- The log of `ngcc.processModule(moduleName, resolvedModule)` invocations
made by the module-name side of `augmentHostWithNgcc`: the `NgccProcessor`
is external, so only its invocations are modelled. -/
abbrev NgccLog := List (String × ResolvedModule)

/-- The log of `ngcc.processModule(name, result)` invocations made by the
type-reference side of `augmentHostWithNgcc`. -/
abbrev NgccTypeRefLog := List (String × ResolvedTypeRef)

/-- The `resolvedModuleModifier` closure `augmentHostWithNgcc` passes to
`augmentResolveModuleNames`: invoke `ngcc.processModule` on a present
resolution (`ngcc` is a required argument, hence truthy) and return the
resolution unchanged. -/
def ngccModuleModifier (log : NgccLog) (resolvedModule : Option ResolvedModule)
    (moduleName : String) : Option ResolvedModule × NgccLog :=
  match resolvedModule with
  | some r => (some r, log ++ [(moduleName, r)])
  | none => (none, log)

/-- The wrapped `resolveModuleNames` installed by `augmentResolveModuleNames`
when the base host already has one: per input name, call the base with the
singleton list `[name]` (the remaining arguments `ρ` passed through) and
feed `result[0]` to the modifier.  Returns the mapped results, the final
modifier state `τ`, and the log of argument lists passed to the base. -/
def resolveModuleNamesViaSingletons {ρ τ : Type}
    (baseResolveModuleNames : List String → ρ → List (Option ResolvedModule))
    (resolvedModuleModifier : τ → Option ResolvedModule → String → Option ResolvedModule × τ)
    (moduleNames : List String) (parameters : ρ) (t : τ) :
    List (Option ResolvedModule) × τ × List (List String) :=
  match moduleNames with
  | [] => ([], t, [])
  | name :: rest =>
    let result := baseResolveModuleNames [name] parameters
    let modified := resolvedModuleModifier t (result.headD none) name
    let step := resolveModuleNamesViaSingletons baseResolveModuleNames
      resolvedModuleModifier rest parameters modified.2
    (modified.1 :: step.1, step.2.1, [name] :: step.2.2)

/-- The fallback `resolveModuleNames` installed by
`augmentResolveModuleNames` when the base host has none: drive
`ts.resolveModuleName` once per name, forwarding the augmentation's
`moduleResolutionCache`, and feed each result to the modifier. -/
def resolveModuleNamesFallback {ρ κ τ : Type}
    (tsResolveModuleName : String → String → ρ → Option κ → Option ResolvedModule)
    (resolvedModuleModifier : τ → Option ResolvedModule → String → Option ResolvedModule × τ)
    (moduleResolutionCache : Option κ) (moduleNames : List String)
    (containingFile : String) (options : ρ) (t : τ) :
    List (Option ResolvedModule) × τ :=
  match moduleNames with
  | [] => ([], t)
  | name :: rest =>
    let result := tsResolveModuleName name containingFile options moduleResolutionCache
    let modified := resolvedModuleModifier t result name
    let step := resolveModuleNamesFallback tsResolveModuleName resolvedModuleModifier
      moduleResolutionCache rest containingFile options modified.2
    (modified.1 :: step.1, step.2)

/-- The module-name resolution installed by `augmentHostWithNgcc` on a host
with a batched resolver: `augmentResolveModuleNames` instantiated with the
ngcc modifier. -/
def ngccResolveModuleNames {ρ : Type}
    (baseResolveModuleNames : List String → ρ → List (Option ResolvedModule))
    (moduleNames : List String) (parameters : ρ) (log : NgccLog) :
    List (Option ResolvedModule) × NgccLog × List (List String) :=
  resolveModuleNamesViaSingletons baseResolveModuleNames ngccModuleModifier
    moduleNames parameters log

/-- The module-name resolution installed by `augmentHostWithNgcc` on a host
without a batched resolver: the `augmentResolveModuleNames` fallback
instantiated with the ngcc modifier. -/
def ngccResolveModuleNamesFallback {ρ κ : Type}
    (tsResolveModuleName : String → String → ρ → Option κ → Option ResolvedModule)
    (moduleResolutionCache : Option κ) (moduleNames : List String)
    (containingFile : String) (options : ρ) (log : NgccLog) :
    List (Option ResolvedModule) × NgccLog :=
  resolveModuleNamesFallback tsResolveModuleName ngccModuleModifier
    moduleResolutionCache moduleNames containingFile options log

/-- The wrapped `resolveTypeReferenceDirectives` installed by
`augmentHostWithNgcc` when the base host already has one: per input name,
call the base with the singleton list `[name]`, pass a present `result[0]`
to `ngcc.processModule`, and return `result[0]`.  Returns the mapped
results, the processModule log, and the log of argument lists passed to
the base. -/
def ngccResolveTypeReferenceDirectives {ρ : Type}
    (baseResolveTypeReferenceDirectives : List String → ρ → List (Option ResolvedTypeRef))
    (names : List String) (parameters : ρ) (log : NgccTypeRefLog) :
    List (Option ResolvedTypeRef) × NgccTypeRefLog × List (List String) :=
  match names with
  | [] => ([], log, [])
  | name :: rest =>
    let result := baseResolveTypeReferenceDirectives [name] parameters
    let log1 :=
      match result.headD none with
      | some r => log ++ [(name, r)]
      | none => log
    let step := ngccResolveTypeReferenceDirectives baseResolveTypeReferenceDirectives
      rest parameters log1
    (result.headD none :: step.1, step.2.1, [name] :: step.2.2)

/-- The fallback `resolveTypeReferenceDirectives` installed by
`augmentHostWithNgcc` when the base host has none: drive
`ts.resolveTypeReferenceDirective` once per name and pass each present
result to `ngcc.processModule`.  The closure has the augmentation's
`moduleResolutionCache` in scope but its call to the external resolver
omits the optional cache argument, so the resolver receives `none`. -/
def ngccResolveTypeReferenceDirectivesFallback {ρ κ : Type}
    (tsResolveTypeReferenceDirective : String → String → ρ → Option κ → Option ResolvedTypeRef)
    (moduleResolutionCache : Option κ) (moduleNames : List String)
    (containingFile : String) (options : ρ) (log : NgccTypeRefLog) :
    List (Option ResolvedTypeRef) × NgccTypeRefLog :=
  match moduleNames with
  | [] => ([], log)
  | name :: rest =>
    let result := tsResolveTypeReferenceDirective name containingFile options none
    let log1 :=
      match result with
      | some r => log ++ [(name, r)]
      | none => log
    let step := ngccResolveTypeReferenceDirectivesFallback tsResolveTypeReferenceDirective
      moduleResolutionCache rest containingFile options log1
    (result :: step.1, step.2)

/-- The per-file body of `augmentProgramWithVersioning`'s loop: assign
`version` from the digest of the raw text when absent, leave an existing
version untouched.  `hash` is the external `crypto` digest
(`createHash('sha256')...digest('hex')`), a fixed function of the text. -/
def versionFile (hash : String → String) (file : SourceFile) : SourceFile :=
  match file.version with
  | none => { file with version := some (hash file.text) }
  | some _ => file

/-- The wrapped `getSourceFiles` installed by `augmentProgramWithVersioning`:
delegate to the base enumeration (whose output is the `files` argument),
version every handle in place, and return the same sequence. -/
def augmentedGetSourceFiles (hash : String → String) (files : List SourceFile) :
    List SourceFile :=
  files.map (versionFile hash)

/-! ### Helper lemmas -/

theorem normalizePath_fixpoint (c : Char) :
    (if (if c = '\\' then '/' else c) = '\\' then '/' else if c = '\\' then '/' else c)
      = if c = '\\' then '/' else c := by
  by_cases h : c = '\\' <;> simp [h]

theorem normalizePath_idem (p : String) :
    normalizePath (normalizePath p) = normalizePath p := by
  have h : ∀ l : List Char,
      (l.map (fun c => if c = '\\' then '/' else c)).map
          (fun c => if c = '\\' then '/' else c)
        = l.map (fun c => if c = '\\' then '/' else c) := by
    intro l
    rw [List.map_map]
    refine List.map_congr_left ?_
    intro c _
    exact normalizePath_fixpoint c
  exact congrArg String.mk (h p.data)

theorem mem_mapSet {α : Type} {m : List (String × α)} {k : String} {v : α}
    {e : String × α} (h : e ∈ mapSet m k v) : e = (k, v) ∨ e ∈ m := by
  induction m with
  | nil => simpa [mapSet] using h
  | cons hd tl ih =>
    obtain ⟨k1, v1⟩ := hd
    by_cases hk : k1 = k
    · subst hk
      simp only [mapSet, if_pos rfl] at h
      rcases List.mem_cons.mp h with h1 | h1
      · exact Or.inl h1
      · exact Or.inr (List.mem_cons_of_mem _ h1)
    · simp only [mapSet, if_neg hk] at h
      rcases List.mem_cons.mp h with h1 | h1
      · exact Or.inr (h1 ▸ List.mem_cons_self _ _)
      · rcases ih h1 with h2 | h2
        · exact Or.inl h2
        · exact Or.inr (List.mem_cons_of_mem _ h2)

theorem mapGet_some_mem {α : Type} {m : List (String × α)} {k : String} {v : α}
    (h : mapGet m k = some v) : (k, v) ∈ m := by
  induction m with
  | nil => simp [mapGet] at h
  | cons hd tl ih =>
    cases hd with
    | mk k1 v1 =>
      by_cases hk : k1 = k
      · subst hk
        simp [mapGet] at h
        subst h
        exact List.mem_cons_self _ _
      · rw [show mapGet ((k1, v1) :: tl) k = mapGet tl k by simp [mapGet, hk]] at h
        exact List.mem_cons_of_mem _ (ih h)

theorem mem_addToSet {s : List String} {x y : String} (h : x ∈ addToSet s y) :
    x ∈ s ∨ x = y := by
  unfold addToSet at h
  by_cases hy : y ∈ s
  · rw [if_pos hy] at h
    exact Or.inl h
  · rw [if_neg hy] at h
    rcases List.mem_append.mp h with h1 | h1
    · exact Or.inl h1
    · exact Or.inr (List.mem_singleton.mp h1)

theorem mapGet_mapSet_self {α : Type} (m : List (String × α)) (k : String) (v : α) :
    mapGet (mapSet m k v) k = some v := by
  induction m with
  | nil => simp [mapSet, mapGet]
  | cons hd tl ih =>
    cases hd with
    | mk k1 v1 =>
      by_cases hk : k1 = k
      · simp [mapSet, mapGet, hk]
      · simp [mapSet, mapGet, hk, ih]

theorem mapGet_mapSet_isSome {α : Type} (m : List (String × α)) (k q : String) (v : α)
    (h : (mapGet m q).isSome) : (mapGet (mapSet m k v) q).isSome := by
  induction m with
  | nil => simp [mapGet] at h
  | cons hd tl ih =>
    obtain ⟨k1, v1⟩ := hd
    by_cases hk : k1 = k
    · subst hk
      simp only [mapSet, if_pos rfl]
      by_cases hq : k1 = q
      · simp [mapGet, hq]
      · simp only [mapGet, if_neg hq] at h ⊢
        exact h
    · simp only [mapSet, if_neg hk]
      by_cases hq : k1 = q
      · simp [mapGet, hq]
      · simp only [mapGet, if_neg hq] at h ⊢
        exact ih h

theorem depCollectResolveModuleNames_results {ρ : Type}
    (base : List String → String → ρ → List (Option ResolvedModule))
    (dependencies : DepGraph) (moduleNames : List String) (containingFile : String)
    (parameters : ρ) :
    (depCollectResolveModuleNames base dependencies moduleNames containingFile parameters).1
      = base moduleNames containingFile parameters := rfl

theorem depCollectResolveModuleNamesFallback_results {ρ κ : Type}
    (tsR : String → String → ρ → Option κ → Option ResolvedModule)
    (cache : Option κ) (containingFile : String) (options : ρ) :
    ∀ (moduleNames : List String) (dependencies : DepGraph),
      (depCollectResolveModuleNamesFallback tsR dependencies cache moduleNames
          containingFile options).1
        = moduleNames.map (fun n => tsR n containingFile options cache) := by
  intro moduleNames
  induction moduleNames with
  | nil => intro dependencies; rfl
  | cons n rest ih =>
    intro dependencies
    simp only [depCollectResolveModuleNamesFallback, List.map_cons]
    rw [ih]

theorem ngccResolveModuleNames_spec {ρ : Type}
    (base : List String → ρ → List (Option ResolvedModule)) (parameters : ρ) :
    ∀ (moduleNames : List String) (log : NgccLog),
      ngccResolveModuleNames base moduleNames parameters log
        = (moduleNames.map (fun n => (base [n] parameters).headD none),
           log ++ moduleNames.filterMap (fun n =>
             ((base [n] parameters).headD none).map (fun r => (n, r))),
           moduleNames.map (fun n => [n])) := by
  intro moduleNames
  induction moduleNames with
  | nil =>
    intro log
    simp [ngccResolveModuleNames, resolveModuleNamesViaSingletons]
  | cons n rest ih =>
    intro log
    have hstep : ∀ t, resolveModuleNamesViaSingletons base ngccModuleModifier rest parameters t
        = ngccResolveModuleNames base rest parameters t := fun _ => rfl
    simp only [ngccResolveModuleNames, resolveModuleNamesViaSingletons, List.map_cons,
      List.filterMap_cons]
    cases hr : (base [n] parameters).headD none with
    | none =>
      simp [ngccModuleModifier, hr, hstep, ih, Option.map_none']
    | some r =>
      simp [ngccModuleModifier, hr, hstep, ih, Option.map_some']

theorem ngccResolveModuleNamesFallback_spec {ρ κ : Type}
    (tsR : String → String → ρ → Option κ → Option ResolvedModule)
    (cache : Option κ) (containingFile : String) (options : ρ) :
    ∀ (moduleNames : List String) (log : NgccLog),
      ngccResolveModuleNamesFallback tsR cache moduleNames containingFile options log
        = (moduleNames.map (fun n => tsR n containingFile options cache),
           log ++ moduleNames.filterMap (fun n =>
             (tsR n containingFile options cache).map (fun r => (n, r)))) := by
  intro moduleNames
  induction moduleNames with
  | nil =>
    intro log
    simp [ngccResolveModuleNamesFallback, resolveModuleNamesFallback]
  | cons n rest ih =>
    intro log
    have hstep : ∀ t, resolveModuleNamesFallback tsR ngccModuleModifier cache rest
        containingFile options t
        = ngccResolveModuleNamesFallback tsR cache rest containingFile options t :=
      fun _ => rfl
    simp only [ngccResolveModuleNamesFallback, resolveModuleNamesFallback, List.map_cons,
      List.filterMap_cons]
    cases hr : tsR n containingFile options cache with
    | none =>
      simp [ngccModuleModifier, hr, hstep, ih, Option.map_none']
    | some r =>
      simp [ngccModuleModifier, hr, hstep, ih, Option.map_some']

theorem ngccResolveTypeReferenceDirectives_spec {ρ : Type}
    (base : List String → ρ → List (Option ResolvedTypeRef)) (parameters : ρ) :
    ∀ (names : List String) (log : NgccTypeRefLog),
      ngccResolveTypeReferenceDirectives base names parameters log
        = (names.map (fun n => (base [n] parameters).headD none),
           log ++ names.filterMap (fun n =>
             ((base [n] parameters).headD none).map (fun r => (n, r))),
           names.map (fun n => [n])) := by
  intro names
  induction names with
  | nil =>
    intro log
    simp [ngccResolveTypeReferenceDirectives]
  | cons n rest ih =>
    intro log
    simp only [ngccResolveTypeReferenceDirectives, List.map_cons, List.filterMap_cons]
    cases hr : (base [n] parameters).headD none with
    | none =>
      simp [hr, ih, Option.map_none']
    | some r =>
      simp [hr, ih, Option.map_some']

theorem ngccResolveTypeReferenceDirectivesFallback_spec {ρ κ : Type}
    (tsT : String → String → ρ → Option κ → Option ResolvedTypeRef)
    (cache : Option κ) (containingFile : String) (options : ρ) :
    ∀ (moduleNames : List String) (log : NgccTypeRefLog),
      ngccResolveTypeReferenceDirectivesFallback tsT cache moduleNames containingFile
          options log
        = (moduleNames.map (fun n => tsT n containingFile options none),
           log ++ moduleNames.filterMap (fun n =>
             (tsT n containingFile options none).map (fun r => (n, r)))) := by
  intro moduleNames
  induction moduleNames with
  | nil =>
    intro log
    simp [ngccResolveTypeReferenceDirectivesFallback]
  | cons n rest ih =>
    intro log
    simp only [ngccResolveTypeReferenceDirectivesFallback, List.map_cons,
      List.filterMap_cons]
    cases hr : tsT n containingFile options none with
    | none =>
      simp [hr, ih, Option.map_none']
    | some r =>
      simp [hr, ih, Option.map_some']

theorem mem_recordDependency_key {d : DepGraph} {cfp m : String}
    {e : String × List String} (h : e ∈ recordDependency d cfp m) :
    e.1 = cfp ∨ e ∈ d := by
  unfold recordDependency at h
  cases hg : mapGet d cfp with
  | some s =>
    simp only [hg] at h
    rcases mem_mapSet h with h1 | h1
    · exact Or.inl (congrArg Prod.fst h1)
    · exact Or.inr h1
  | none =>
    simp only [hg] at h
    rcases mem_mapSet h with h1 | h1
    · exact Or.inl (congrArg Prod.fst h1)
    · exact Or.inr h1

theorem mem_recordDependency_member {d : DepGraph} {cfp m : String}
    {e : String × List String} {x : String}
    (he : e ∈ recordDependency d cfp m) (hx : x ∈ e.2) :
    (∃ e0 ∈ d, e0.1 = e.1 ∧ x ∈ e0.2) ∨ (e.1 = cfp ∧ x = m) := by
  unfold recordDependency at he
  cases hg : mapGet d cfp with
  | some s =>
    simp only [hg] at he
    rcases mem_mapSet he with h1 | h1
    · subst h1
      rcases mem_addToSet hx with h2 | h2
      · exact Or.inl ⟨(cfp, s), mapGet_some_mem hg, rfl, h2⟩
      · exact Or.inr ⟨rfl, h2⟩
    · exact Or.inl ⟨e, h1, rfl, hx⟩
  | none =>
    simp only [hg] at he
    rcases mem_mapSet he with h1 | h1
    · subst h1
      exact Or.inr ⟨rfl, List.mem_singleton.mp hx⟩
    · exact Or.inl ⟨e, h1, rfl, hx⟩

theorem mem_recordResults_key (cfp : String) :
    ∀ (rs : List (Option ResolvedModule)) (d : DepGraph) (e : String × List String),
      e ∈ recordResults cfp rs d → e.1 = cfp ∨ ∃ e0 ∈ d, e0.1 = e.1 := by
  intro rs
  induction rs with
  | nil =>
    intro d e he
    exact Or.inr ⟨e, he, rfl⟩
  | cons r rest ih =>
    intro d e he
    cases r with
    | none => exact ih d e he
    | some rm =>
      rcases ih _ e he with h1 | ⟨e0, he0, heq⟩
      · exact Or.inl h1
      · rcases mem_recordDependency_key he0 with h2 | h2
        · exact Or.inl (heq.symm.trans h2)
        · exact Or.inr ⟨e0, h2, heq⟩

theorem mem_recordResults_member (cfp : String) :
    ∀ (rs : List (Option ResolvedModule)) (d : DepGraph) (e : String × List String)
      (x : String),
      e ∈ recordResults cfp rs d → x ∈ e.2 →
        (∃ e0 ∈ d, e0.1 = e.1 ∧ x ∈ e0.2)
        ∨ (e.1 = cfp ∧ ∃ r : ResolvedModule, some r ∈ rs ∧ r.resolvedFileName = x) := by
  intro rs
  induction rs with
  | nil =>
    intro d e x he hx
    exact Or.inl ⟨e, he, rfl, hx⟩
  | cons r rest ih =>
    intro d e x he hx
    cases r with
    | none =>
      rcases ih d e x he hx with h1 | ⟨h1, rr, hrr, hname⟩
      · exact Or.inl h1
      · exact Or.inr ⟨h1, rr, List.mem_cons_of_mem _ hrr, hname⟩
    | some rm =>
      rcases ih _ e x he hx with h1 | ⟨h1, rr, hrr, hname⟩
      · obtain ⟨e0, he0, heq, hxe0⟩ := h1
        rcases mem_recordDependency_member he0 hxe0 with h2 | ⟨hk, hm⟩
        · obtain ⟨e1, he1, heq1, hx1⟩ := h2
          exact Or.inl ⟨e1, he1, heq1.trans heq, hx1⟩
        · exact Or.inr ⟨heq.symm.trans hk, rm, List.mem_cons_self _ _, hm.symm⟩
      · exact Or.inr ⟨h1, rr, List.mem_cons_of_mem _ hrr, hname⟩

theorem mem_depCollectFallback_key {ρ κ : Type}
    (tsR : String → String → ρ → Option κ → Option ResolvedModule)
    (cache : Option κ) (containingFile : String) (options : ρ) :
    ∀ (moduleNames : List String) (d : DepGraph) (e : String × List String),
      e ∈ (depCollectResolveModuleNamesFallback tsR d cache moduleNames
          containingFile options).2 →
        e.1 = normalizePath containingFile ∨ ∃ e0 ∈ d, e0.1 = e.1 := by
  intro moduleNames
  induction moduleNames with
  | nil =>
    intro d e he
    exact Or.inr ⟨e, he, rfl⟩
  | cons n rest ih =>
    intro d e he
    simp only [depCollectResolveModuleNamesFallback] at he
    cases hr : tsR n containingFile options cache with
    | none =>
      simp only [hr] at he
      exact ih d e he
    | some rm =>
      simp only [hr] at he
      rcases ih _ e he with h1 | ⟨e0, he0, heq⟩
      · exact Or.inl h1
      · rcases mem_recordDependency_key he0 with h2 | h2
        · exact Or.inl (heq.symm.trans h2)
        · exact Or.inr ⟨e0, h2, heq⟩

theorem mem_depCollectFallback_member {ρ κ : Type}
    (tsR : String → String → ρ → Option κ → Option ResolvedModule)
    (cache : Option κ) (containingFile : String) (options : ρ) :
    ∀ (moduleNames : List String) (d : DepGraph) (e : String × List String)
      (x : String),
      e ∈ (depCollectResolveModuleNamesFallback tsR d cache moduleNames
          containingFile options).2 →
      x ∈ e.2 →
        (∃ e0 ∈ d, e0.1 = e.1 ∧ x ∈ e0.2)
        ∨ (e.1 = normalizePath containingFile
            ∧ ∃ r : ResolvedModule,
                (∃ n ∈ moduleNames, tsR n containingFile options cache = some r)
                ∧ r.resolvedFileName = x) := by
  intro moduleNames
  induction moduleNames with
  | nil =>
    intro d e x he hx
    exact Or.inl ⟨e, he, rfl, hx⟩
  | cons n rest ih =>
    intro d e x he hx
    simp only [depCollectResolveModuleNamesFallback] at he
    cases hr : tsR n containingFile options cache with
    | none =>
      simp only [hr] at he
      rcases ih d e x he hx with h1 | ⟨h1, rr, ⟨n1, hn1, hres⟩, hname⟩
      · exact Or.inl h1
      · exact Or.inr ⟨h1, rr, ⟨n1, List.mem_cons_of_mem _ hn1, hres⟩, hname⟩
    | some rm =>
      simp only [hr] at he
      rcases ih _ e x he hx with h1 | ⟨h1, rr, ⟨n1, hn1, hres⟩, hname⟩
      · obtain ⟨e0, he0, heq, hxe0⟩ := h1
        rcases mem_recordDependency_member he0 hxe0 with h2 | ⟨hk, hm⟩
        · obtain ⟨e1, he1, heq1, hx1⟩ := h2
          exact Or.inl ⟨e1, he1, heq1.trans heq, hx1⟩
        · exact Or.inr ⟨heq.symm.trans hk, rm,
            ⟨n, List.mem_cons_self _ _, hr⟩, hm.symm⟩
      · exact Or.inr ⟨h1, rr, ⟨n1, List.mem_cons_of_mem _ hn1, hres⟩, hname⟩

theorem cachedGetSourceFile_hit {α ε ρ : Type}
    (base : String → α → ε → Bool → ρ → Option SourceFile)
    (cache : SourceCache) (fileName : String) (lv : α) (oe : ε) (p : ρ)
    {g : SourceFile} (hg : mapGet cache fileName = some g) :
    cachedGetSourceFile base cache fileName lv oe false p = (some g, cache, []) := by
  unfold cachedGetSourceFile
  rw [if_pos ⟨rfl, by rw [hg]; rfl⟩, hg]

theorem cachedGetSourceFile_delegates {α ε ρ : Type}
    (base : String → α → ε → Bool → ρ → Option SourceFile)
    (cache : SourceCache) (fileName : String) (lv : α) (oe : ε) (p : ρ) (b : Bool)
    (h : b = true ∨ mapGet cache fileName = none) :
    cachedGetSourceFile base cache fileName lv oe b p
      = match base fileName lv oe true p with
        | some f => (some f, mapSet cache fileName f, [(fileName, true)])
        | none => (none, cache, [(fileName, true)]) := by
  unfold cachedGetSourceFile
  rcases h with h | h
  · subst h
    rw [if_neg (by simp)]
  · rw [if_neg (by simp [h])]

/-! ### Claim theorems -/

/-- C3: for the caching wrapper on `getSourceFile`, after a successful
retrieval without the force-fresh flag, retrieving the same path again
without the flag returns the identical cached handle, leaves the cache
unchanged, and makes no delegate call; with the force-fresh flag set, the
delegate is invoked even though a cache entry exists, and every delegate
call this layer makes carries the new-read flag. -/
theorem claim_cache_transparency {α ε ρ : Type}
    (base : String → α → ε → Bool → ρ → Option SourceFile)
    (cache : SourceCache) (fileName : String) (lv : α) (oe : ε) (p : ρ)
    (f : SourceFile)
    (hfirst : (cachedGetSourceFile base cache fileName lv oe false p).1 = some f) :
    (cachedGetSourceFile base
        (cachedGetSourceFile base cache fileName lv oe false p).2.1
        fileName lv oe false p
      = (some f, (cachedGetSourceFile base cache fileName lv oe false p).2.1, []))
    ∧ (cachedGetSourceFile base cache fileName lv oe true p).2.2 = [(fileName, true)]
    ∧ (cachedGetSourceFile base cache fileName lv oe true p).1
        = base fileName lv oe true p
    ∧ (∀ b : Bool, ∀ c ∈ (cachedGetSourceFile base cache fileName lv oe b p).2.2,
        c = (fileName, true)) := by
  have hstored :
      mapGet (cachedGetSourceFile base cache fileName lv oe false p).2.1 fileName
        = some f := by
    cases hg : mapGet cache fileName with
    | some g =>
      rw [cachedGetSourceFile_hit base cache fileName lv oe p hg] at hfirst ⊢
      show mapGet cache fileName = some f
      rw [hg]
      simpa using hfirst
    | none =>
      rw [cachedGetSourceFile_delegates base cache fileName lv oe p false (Or.inr hg)]
        at hfirst ⊢
      cases hb : base fileName lv oe true p with
      | none =>
        simp only [hb] at hfirst
        simp at hfirst
      | some g =>
        simp only [hb] at hfirst ⊢
        have hgf : g = f := by simpa using hfirst
        subst hgf
        exact mapGet_mapSet_self cache fileName g
  refine ⟨?_, ?_, ?_, ?_⟩
  · exact cachedGetSourceFile_hit base _ fileName lv oe p hstored
  · rw [cachedGetSourceFile_delegates base cache fileName lv oe p true (Or.inl rfl)]
    cases hb : base fileName lv oe true p <;> simp [hb]
  · rw [cachedGetSourceFile_delegates base cache fileName lv oe p true (Or.inl rfl)]
    cases hb : base fileName lv oe true p <;> simp [hb]
  · intro b c hc
    cases b with
    | true =>
      rw [cachedGetSourceFile_delegates base cache fileName lv oe p true (Or.inl rfl)]
        at hc
      cases hb : base fileName lv oe true p <;> simp only [hb] at hc <;> simpa using hc
    | false =>
      cases hg : mapGet cache fileName with
      | some g =>
        rw [cachedGetSourceFile_hit base cache fileName lv oe p hg] at hc
        simp at hc
      | none =>
        rw [cachedGetSourceFile_delegates base cache fileName lv oe p false (Or.inr hg)]
          at hc
        cases hb : base fileName lv oe true p <;> simp only [hb] at hc <;> simpa using hc

/-- C3 witness: a concrete host whose cache already holds `a.ts`. -/
theorem claim_cache_transparency_witness :
    ((cachedGetSourceFile (fun _ _ _ _ (_ : Unit) => (none : Option SourceFile))
        [("a.ts", ⟨"x", none⟩)] "a.ts" (0 : Nat) () false ()).1
      = some ⟨"x", none⟩)
    ∧ ((cachedGetSourceFile (fun _ _ _ _ (_ : Unit) => (none : Option SourceFile))
          ((cachedGetSourceFile (fun _ _ _ _ (_ : Unit) => (none : Option SourceFile))
            [("a.ts", ⟨"x", none⟩)] "a.ts" (0 : Nat) () false ()).2.1)
          "a.ts" (0 : Nat) () false ()
        = (some ⟨"x", none⟩,
           (cachedGetSourceFile (fun _ _ _ _ (_ : Unit) => (none : Option SourceFile))
             [("a.ts", ⟨"x", none⟩)] "a.ts" (0 : Nat) () false ()).2.1, []))
      ∧ ((cachedGetSourceFile (fun _ _ _ _ (_ : Unit) => (none : Option SourceFile))
            [("a.ts", ⟨"x", none⟩)] "a.ts" (0 : Nat) () true ()).2.2
          = [("a.ts", true)])
      ∧ ((cachedGetSourceFile (fun _ _ _ _ (_ : Unit) => (none : Option SourceFile))
            [("a.ts", ⟨"x", none⟩)] "a.ts" (0 : Nat) () true ()).1
          = (fun _ _ _ _ (_ : Unit) => (none : Option SourceFile)) "a.ts" (0 : Nat) () true ())
      ∧ (∀ b : Bool, ∀ c ∈ (cachedGetSourceFile
            (fun _ _ _ _ (_ : Unit) => (none : Option SourceFile))
            [("a.ts", ⟨"x", none⟩)] "a.ts" (0 : Nat) () b ()).2.2,
          c = ("a.ts", true))) :=
  ⟨rfl, claim_cache_transparency (fun _ _ _ _ _ => none)
    [("a.ts", ⟨"x", none⟩)] "a.ts" 0 () () ⟨"x", none⟩ rfl⟩

/-- C7 counterexample: a forced-fresh retrieval on an empty cache does
create a cache entry when the delegate returns a file, contradicting the
claim that forced-fresh retrievals never create entries. -/
theorem claim_cache_entry_lifecycle_cex :
    mapGet ([] : SourceCache) "a.ts" = none
    ∧ (cachedGetSourceFile (fun _ _ _ _ (_ : Unit) => some ⟨"text", none⟩)
        [] "a.ts" (0 : Nat) () true ()).2.1
      = [("a.ts", ⟨"text", none⟩)] :=
  ⟨rfl, rfl⟩

/-- C7 (amended): a cache entry is created (or overwritten) by every
successful delegated retrieval — on a miss without the force-fresh flag
and also on every forced-fresh retrieval; a hit leaves the cache
unchanged, a failed delegate call leaves it unchanged, and no entry is
ever removed by this layer. -/
theorem claim_cache_entry_lifecycle {α ε ρ : Type}
    (base : String → α → ε → Bool → ρ → Option SourceFile)
    (cache : SourceCache) (fileName : String) (lv : α) (oe : ε) (p : ρ) (b : Bool) :
    (∀ g, b = false → mapGet cache fileName = some g →
        (cachedGetSourceFile base cache fileName lv oe b p).2.1 = cache)
    ∧ (∀ f, (b = true ∨ mapGet cache fileName = none) →
        base fileName lv oe true p = some f →
        (cachedGetSourceFile base cache fileName lv oe b p).2.1 = mapSet cache fileName f)
    ∧ ((b = true ∨ mapGet cache fileName = none) →
        base fileName lv oe true p = none →
        (cachedGetSourceFile base cache fileName lv oe b p).2.1 = cache)
    ∧ (∀ k, (mapGet cache k).isSome →
        (mapGet (cachedGetSourceFile base cache fileName lv oe b p).2.1 k).isSome) := by
  refine ⟨?_, ?_, ?_, ?_⟩
  · intro g hb hg
    subst hb
    rw [cachedGetSourceFile_hit base cache fileName lv oe p hg]
  · intro f hd hb
    rw [cachedGetSourceFile_delegates base cache fileName lv oe p b hd]
    simp [hb]
  · intro hd hb
    rw [cachedGetSourceFile_delegates base cache fileName lv oe p b hd]
    simp [hb]
  · intro k hk
    by_cases hcond : b = false ∧ (mapGet cache fileName).isSome
    · obtain ⟨hb, hs⟩ := hcond
      subst hb
      obtain ⟨g, hg⟩ := Option.isSome_iff_exists.mp hs
      rw [cachedGetSourceFile_hit base cache fileName lv oe p hg]
      exact hk
    · have hd : b = true ∨ mapGet cache fileName = none := by
        cases b with
        | true => exact Or.inl rfl
        | false =>
          right
          cases hmg : mapGet cache fileName with
          | none => rfl
          | some g => exact absurd ⟨rfl, by rw [hmg]; rfl⟩ hcond
      rw [cachedGetSourceFile_delegates base cache fileName lv oe p b hd]
      cases hb : base fileName lv oe true p with
      | some f =>
        simp only [hb]
        exact mapGet_mapSet_isSome cache fileName k f hk
      | none =>
        simp only [hb]
        exact hk

/-- C7 witness: the amended lifecycle at a concrete host (forced-fresh
call on a one-entry cache). -/
theorem claim_cache_entry_lifecycle_witness :
    (∀ g, true = false → mapGet [("a.ts", SourceFile.mk "x" none)] "a.ts" = some g →
        (cachedGetSourceFile (fun _ _ _ _ (_ : Unit) => some ⟨"y", none⟩)
          [("a.ts", ⟨"x", none⟩)] "a.ts" (0 : Nat) () true ()).2.1
          = [("a.ts", SourceFile.mk "x" none)])
    ∧ (∀ f, (true = true ∨ mapGet [("a.ts", SourceFile.mk "x" none)] "a.ts" = none) →
        (fun _ _ _ _ (_ : Unit) => some (SourceFile.mk "y" none)) "a.ts" (0 : Nat) () true ()
          = some f →
        (cachedGetSourceFile (fun _ _ _ _ (_ : Unit) => some ⟨"y", none⟩)
          [("a.ts", ⟨"x", none⟩)] "a.ts" (0 : Nat) () true ()).2.1
          = mapSet [("a.ts", SourceFile.mk "x" none)] "a.ts" f)
    ∧ ((true = true ∨ mapGet [("a.ts", SourceFile.mk "x" none)] "a.ts" = none) →
        (fun _ _ _ _ (_ : Unit) => some (SourceFile.mk "y" none)) "a.ts" (0 : Nat) () true ()
          = none →
        (cachedGetSourceFile (fun _ _ _ _ (_ : Unit) => some ⟨"y", none⟩)
          [("a.ts", ⟨"x", none⟩)] "a.ts" (0 : Nat) () true ()).2.1
          = [("a.ts", SourceFile.mk "x" none)])
    ∧ (∀ k, (mapGet [("a.ts", SourceFile.mk "x" none)] k).isSome →
        (mapGet (cachedGetSourceFile (fun _ _ _ _ (_ : Unit) => some ⟨"y", none⟩)
          [("a.ts", ⟨"x", none⟩)] "a.ts" (0 : Nat) () true ()).2.1 k).isSome) :=
  claim_cache_entry_lifecycle (fun _ _ _ _ _ => some ⟨"y", none⟩)
    [("a.ts", ⟨"x", none⟩)] "a.ts" 0 () () true

/-- C10: on a cache hit without the force-fresh flag, the result is
determined by the file name alone — two calls differing in language
version, error callback, extra parameters, and even in the underlying
delegate return the same cached handle. -/
theorem claim_cache_key_only {α1 α2 ε1 ε2 ρ1 ρ2 : Type}
    (base1 : String → α1 → ε1 → Bool → ρ1 → Option SourceFile)
    (base2 : String → α2 → ε2 → Bool → ρ2 → Option SourceFile)
    (cache : SourceCache) (fileName : String)
    (lv1 : α1) (lv2 : α2) (oe1 : ε1) (oe2 : ε2) (p1 : ρ1) (p2 : ρ2)
    (h : (mapGet cache fileName).isSome) :
    (cachedGetSourceFile base1 cache fileName lv1 oe1 false p1).1
      = mapGet cache fileName
    ∧ (cachedGetSourceFile base1 cache fileName lv1 oe1 false p1).1
      = (cachedGetSourceFile base2 cache fileName lv2 oe2 false p2).1 := by
  obtain ⟨g, hg⟩ := Option.isSome_iff_exists.mp h
  rw [cachedGetSourceFile_hit base1 cache fileName lv1 oe1 p1 hg,
    cachedGetSourceFile_hit base2 cache fileName lv2 oe2 p2 hg, hg]
  exact ⟨rfl, rfl⟩

/-- C10 witness: two hit calls with different language versions, error
callbacks, extra parameters and delegates. -/
theorem claim_cache_key_only_witness :
    ((cachedGetSourceFile (fun _ _ _ _ (_ : Unit) => (none : Option SourceFile))
        [("a.ts", ⟨"x", none⟩)] "a.ts" (0 : Nat) () false ()).1
      = mapGet [("a.ts", SourceFile.mk "x" none)] "a.ts")
    ∧ ((cachedGetSourceFile (fun _ _ _ _ (_ : Unit) => (none : Option SourceFile))
          [("a.ts", ⟨"x", none⟩)] "a.ts" (0 : Nat) () false ()).1
        = (cachedGetSourceFile (fun _ _ _ _ (_ : Bool) => some (SourceFile.mk "other" none))
            [("a.ts", ⟨"x", none⟩)] "a.ts" "es2015" (7 : Nat) false true).1) :=
  claim_cache_key_only (fun _ _ _ _ _ => none)
    (fun _ _ _ _ _ => some ⟨"other", none⟩)
    [("a.ts", ⟨"x", none⟩)] "a.ts" 0 "es2015" () 7 () true rfl

theorem ngccModuleModifier_fst (t : NgccLog) (r : Option ResolvedModule) (n : String) :
    (ngccModuleModifier t r n).1 = r := by
  cases r <;> rfl

/-- C1: every wrapped resolution operation — the dependency-collection
wrapper (given that the base host's batched resolver answers one
resolution per input name), the ngcc module-name wrapper, the ngcc
type-reference wrapper, and the installed fallbacks — returns a sequence
of exactly the input batch's length whose i-th element is the (nullable)
resolution for the i-th input name, on both the batched and the
single-name path. -/
theorem claim_result_shape_preservation {ρ σ κ : Type}
    (base : List String → String → ρ → List (Option ResolvedModule))
    (baseN : List String → σ → List (Option ResolvedModule))
    (baseT : List String → σ → List (Option ResolvedTypeRef))
    (tsR : String → String → ρ → Option κ → Option ResolvedModule)
    (tsT : String → String → ρ → Option κ → Option ResolvedTypeRef)
    (dependencies : DepGraph) (cache : Option κ) (moduleNames : List String)
    (containingFile : String) (p : ρ) (q : σ) (log : NgccLog) (tlog : NgccTypeRefLog)
    (hbase : (base moduleNames containingFile p).length = moduleNames.length) :
    ((depCollectResolveModuleNames base dependencies moduleNames containingFile p).1
        = base moduleNames containingFile p
      ∧ (depCollectResolveModuleNames base dependencies moduleNames containingFile p).1.length
        = moduleNames.length)
    ∧ (depCollectResolveModuleNamesFallback tsR dependencies cache moduleNames
        containingFile p).1
      = moduleNames.map (fun n => tsR n containingFile p cache)
    ∧ (ngccResolveModuleNames baseN moduleNames q log).1
      = moduleNames.map (fun n => (baseN [n] q).headD none)
    ∧ (ngccResolveModuleNamesFallback tsR cache moduleNames containingFile p log).1
      = moduleNames.map (fun n => tsR n containingFile p cache)
    ∧ (ngccResolveTypeReferenceDirectives baseT moduleNames q tlog).1
      = moduleNames.map (fun n => (baseT [n] q).headD none)
    ∧ (ngccResolveTypeReferenceDirectivesFallback tsT cache moduleNames containingFile
        p tlog).1
      = moduleNames.map (fun n => tsT n containingFile p none) := by
  refine ⟨⟨rfl, hbase⟩, ?_, ?_, ?_, ?_, ?_⟩
  · exact depCollectResolveModuleNamesFallback_results tsR cache containingFile p
      moduleNames dependencies
  · rw [ngccResolveModuleNames_spec]
  · rw [ngccResolveModuleNamesFallback_spec]
  · rw [ngccResolveTypeReferenceDirectives_spec]
  · rw [ngccResolveTypeReferenceDirectivesFallback_spec]

/-- C1 witness: a concrete host on the one-name batch `["a"]`. -/
theorem claim_result_shape_preservation_witness :
    ((fun _ _ (_ : Unit) => [(none : Option ResolvedModule)]) ["a"] "f.ts" ()).length
        = (["a"] : List String).length
    ∧ (((depCollectResolveModuleNames (fun _ _ (_ : Unit) => [(none : Option ResolvedModule)])
            [] ["a"] "f.ts" ()).1
          = (fun _ _ (_ : Unit) => [(none : Option ResolvedModule)]) ["a"] "f.ts" ()
        ∧ (depCollectResolveModuleNames (fun _ _ (_ : Unit) => [(none : Option ResolvedModule)])
            [] ["a"] "f.ts" ()).1.length = (["a"] : List String).length)
      ∧ (depCollectResolveModuleNamesFallback
          (fun _ _ (_ : Unit) (_ : Option Unit) => (none : Option ResolvedModule))
          [] none ["a"] "f.ts" ()).1
        = (["a"] : List String).map (fun n =>
            (fun _ _ (_ : Unit) (_ : Option Unit) => (none : Option ResolvedModule))
              n "f.ts" () none)
      ∧ (ngccResolveModuleNames (fun _ (_ : Unit) => [(none : Option ResolvedModule)])
          ["a"] () []).1
        = (["a"] : List String).map (fun n =>
            ((fun _ (_ : Unit) => [(none : Option ResolvedModule)]) [n] ()).headD none)
      ∧ (ngccResolveModuleNamesFallback
          (fun _ _ (_ : Unit) (_ : Option Unit) => (none : Option ResolvedModule))
          none ["a"] "f.ts" () []).1
        = (["a"] : List String).map (fun n =>
            (fun _ _ (_ : Unit) (_ : Option Unit) => (none : Option ResolvedModule))
              n "f.ts" () none)
      ∧ (ngccResolveTypeReferenceDirectives (fun _ (_ : Unit) => [(none : Option ResolvedTypeRef)])
          ["a"] () []).1
        = (["a"] : List String).map (fun n =>
            ((fun _ (_ : Unit) => [(none : Option ResolvedTypeRef)]) [n] ()).headD none)
      ∧ (ngccResolveTypeReferenceDirectivesFallback
          (fun _ _ (_ : Unit) (_ : Option Unit) => (none : Option ResolvedTypeRef))
          none ["a"] "f.ts" () []).1
        = (["a"] : List String).map (fun n =>
            (fun _ _ (_ : Unit) (_ : Option Unit) => (none : Option ResolvedTypeRef))
              n "f.ts" () none)) :=
  ⟨rfl, claim_result_shape_preservation
    (fun _ _ _ => [none]) (fun _ _ => [none]) (fun _ _ => [none])
    (fun _ _ _ _ => none) (fun _ _ _ _ => none)
    [] none ["a"] "f.ts" () () [] [] rfl⟩

/-- C2: through every ngcc post-processing path (module names and
type-reference directives, wrapped and fallback): the returned sequence
carries each name's resolution unmodified (absence returned as absence),
and the `ngcc.processModule` log grows by exactly one entry per present
resolution of this call — pairing the requesting name with its resolution,
in input order — and by no entry for an absent resolution. -/
theorem claim_ngcc_postprocessing_passthrough {ρ σ κ : Type}
    (baseN : List String → σ → List (Option ResolvedModule))
    (baseT : List String → σ → List (Option ResolvedTypeRef))
    (tsR : String → String → ρ → Option κ → Option ResolvedModule)
    (tsT : String → String → ρ → Option κ → Option ResolvedTypeRef)
    (cache : Option κ) (moduleNames : List String) (containingFile : String)
    (p : ρ) (q : σ) (log : NgccLog) (tlog : NgccTypeRefLog) :
    ((ngccResolveModuleNames baseN moduleNames q log).1
        = moduleNames.map (fun n => (baseN [n] q).headD none)
      ∧ (ngccResolveModuleNames baseN moduleNames q log).2.1
        = log ++ moduleNames.filterMap (fun n =>
            ((baseN [n] q).headD none).map (fun r => (n, r))))
    ∧ ((ngccResolveModuleNamesFallback tsR cache moduleNames containingFile p log).1
        = moduleNames.map (fun n => tsR n containingFile p cache)
      ∧ (ngccResolveModuleNamesFallback tsR cache moduleNames containingFile p log).2
        = log ++ moduleNames.filterMap (fun n =>
            (tsR n containingFile p cache).map (fun r => (n, r))))
    ∧ ((ngccResolveTypeReferenceDirectives baseT moduleNames q tlog).1
        = moduleNames.map (fun n => (baseT [n] q).headD none)
      ∧ (ngccResolveTypeReferenceDirectives baseT moduleNames q tlog).2.1
        = tlog ++ moduleNames.filterMap (fun n =>
            ((baseT [n] q).headD none).map (fun r => (n, r))))
    ∧ ((ngccResolveTypeReferenceDirectivesFallback tsT cache moduleNames containingFile
          p tlog).1
        = moduleNames.map (fun n => tsT n containingFile p none)
      ∧ (ngccResolveTypeReferenceDirectivesFallback tsT cache moduleNames containingFile
          p tlog).2
        = tlog ++ moduleNames.filterMap (fun n =>
            (tsT n containingFile p none).map (fun r => (n, r)))) := by
  rw [ngccResolveModuleNames_spec, ngccResolveModuleNamesFallback_spec,
    ngccResolveTypeReferenceDirectives_spec, ngccResolveTypeReferenceDirectivesFallback_spec]
  exact ⟨⟨rfl, rfl⟩, ⟨rfl, rfl⟩, ⟨rfl, rfl⟩, ⟨rfl, rfl⟩⟩

/-- C6: bookkeeping is invisible in the returned value of the
dependency-collection wrapper: on both branches the results are exactly
the underlying resolutions, for every containing-file path and
independently of the dependency-graph state, so edge recording can never
turn a successful resolution call into an error. -/
theorem claim_recording_never_blocks {ρ κ : Type}
    (base : List String → String → ρ → List (Option ResolvedModule))
    (tsR : String → String → ρ → Option κ → Option ResolvedModule)
    (d1 d2 : DepGraph) (cache : Option κ) (moduleNames : List String)
    (containingFile : String) (p : ρ) :
    (depCollectResolveModuleNames base d1 moduleNames containingFile p).1
      = base moduleNames containingFile p
    ∧ (depCollectResolveModuleNames base d1 moduleNames containingFile p).1
      = (depCollectResolveModuleNames base d2 moduleNames containingFile p).1
    ∧ (depCollectResolveModuleNamesFallback tsR d1 cache moduleNames containingFile p).1
      = moduleNames.map (fun n => tsR n containingFile p cache)
    ∧ (depCollectResolveModuleNamesFallback tsR d1 cache moduleNames containingFile p).1
      = (depCollectResolveModuleNamesFallback tsR d2 cache moduleNames containingFile p).1 := by
  refine ⟨rfl, rfl, ?_, ?_⟩
  · exact depCollectResolveModuleNamesFallback_results tsR cache containingFile p
      moduleNames d1
  · rw [depCollectResolveModuleNamesFallback_results tsR cache containingFile p
      moduleNames d1,
      depCollectResolveModuleNamesFallback_results tsR cache containingFile p
      moduleNames d2]

/-- C8 counterexample: the type-reference fallback does not forward the
supplied resolution cache.  With a resolver that succeeds exactly when it
receives a cache, the wrapped call still yields no resolution even though
the cache token `some 1` was supplied to the augmentation. -/
theorem claim_resolution_cache_forwarding_cex :
    ((ngccResolveTypeReferenceDirectivesFallback
        (fun _ _ (_ : Unit) (c : Option Nat) =>
          if c.isSome then some ⟨"types/react/index.d.ts"⟩ else none)
        (some 1) ["react"] "app.ts" () []).1
      = [none])
    ∧ ((fun _ _ (_ : Unit) (c : Option Nat) =>
          if c.isSome then some (ResolvedTypeRef.mk "types/react/index.d.ts") else none)
        "react" "app.ts" () (some 1)
      = some ⟨"types/react/index.d.ts"⟩) :=
  ⟨rfl, rfl⟩

/-- C8 (amended): the resolution-cache token supplied to the augmentation
is forwarded to every single-name lookup of the dependency-collection
fallback and of the ngcc module-name fallback; the ngcc type-reference
fallback instead invokes the external resolver with no cache (`none`) on
every lookup. -/
theorem claim_resolution_cache_forwarding {ρ κ : Type}
    (tsR tsR2 : String → String → ρ → Option κ → Option ResolvedModule)
    (tsT : String → String → ρ → Option κ → Option ResolvedTypeRef)
    (dependencies : DepGraph) (cache : Option κ) (moduleNames : List String)
    (containingFile : String) (p : ρ) (log : NgccLog) (tlog : NgccTypeRefLog) :
    (depCollectResolveModuleNamesFallback tsR dependencies cache moduleNames
        containingFile p).1
      = moduleNames.map (fun n => tsR n containingFile p cache)
    ∧ (ngccResolveModuleNamesFallback tsR2 cache moduleNames containingFile p log).1
      = moduleNames.map (fun n => tsR2 n containingFile p cache)
    ∧ (ngccResolveTypeReferenceDirectivesFallback tsT cache moduleNames containingFile
        p tlog).1
      = moduleNames.map (fun n => tsT n containingFile p none) := by
  refine ⟨?_, ?_, ?_⟩
  · exact depCollectResolveModuleNamesFallback_results tsR cache containingFile p
      moduleNames dependencies
  · rw [ngccResolveModuleNamesFallback_spec]
  · rw [ngccResolveTypeReferenceDirectivesFallback_spec]

/-- C9: when the base host has a native batched resolver, the ngcc
wrappers degrade it to per-name calls: for an input batch of n names the
base resolver is invoked n times, each with a singleton name list in input
order, and the wrapped result maps each name to the post-processed first
element of its singleton-batch result. -/
theorem claim_ngcc_degrades_batched {σ : Type}
    (baseN : List String → σ → List (Option ResolvedModule))
    (baseT : List String → σ → List (Option ResolvedTypeRef))
    (names : List String) (q : σ) (log : NgccLog) (tlog : NgccTypeRefLog) :
    (ngccResolveModuleNames baseN names q log).2.2 = names.map (fun n => [n])
    ∧ (ngccResolveModuleNames baseN names q log).2.2.length = names.length
    ∧ (ngccResolveModuleNames baseN names q log).1
      = names.map (fun n => (ngccModuleModifier log ((baseN [n] q).headD none) n).1)
    ∧ (ngccResolveTypeReferenceDirectives baseT names q tlog).2.2
      = names.map (fun n => [n])
    ∧ (ngccResolveTypeReferenceDirectives baseT names q tlog).2.2.length = names.length
    ∧ (ngccResolveTypeReferenceDirectives baseT names q tlog).1
      = names.map (fun n => (baseT [n] q).headD none) := by
  refine ⟨?_, ?_, ?_, ?_, ?_, ?_⟩
  · rw [ngccResolveModuleNames_spec]
  · rw [ngccResolveModuleNames_spec]
    exact List.length_map _ _
  · rw [ngccResolveModuleNames_spec]
    exact List.map_congr_left (fun n _ => (ngccModuleModifier_fst log _ n).symm)
  · rw [ngccResolveTypeReferenceDirectives_spec]
  · rw [ngccResolveTypeReferenceDirectives_spec]
    exact List.length_map _ _
  · rw [ngccResolveTypeReferenceDirectives_spec]

/-- C4: the versioned enumeration preserves the sequence (same length,
i-th output handle derived from the i-th input handle with identical raw
text); a handle lacking a version is assigned the fixed digest of its raw
text, a handle that already has a version is returned completely
unchanged, and enumerating twice in sequence returns the same versioned
handles (idempotence), so every file's version is equal across repeated
enumerations. -/
theorem claim_versioning_idempotence (hash : String → String) (files : List SourceFile) :
    (augmentedGetSourceFiles hash files).length = files.length
    ∧ (∀ (i : Nat) (file : SourceFile), files[i]? = some file →
        ∃ file1, (augmentedGetSourceFiles hash files)[i]? = some file1
          ∧ file1.text = file.text
          ∧ (file.version = none → file1.version = some (hash file.text))
          ∧ (∀ v, file.version = some v → file1 = file))
    ∧ augmentedGetSourceFiles hash (augmentedGetSourceFiles hash files)
        = augmentedGetSourceFiles hash files := by
  refine ⟨List.length_map _ _, ?_, ?_⟩
  · intro i file hf
    refine ⟨versionFile hash file, ?_, ?_, ?_, ?_⟩
    · unfold augmentedGetSourceFiles
      rw [List.getElem?_map, hf]
      rfl
    · obtain ⟨t, ver⟩ := file
      cases ver <;> rfl
    · intro hv
      obtain ⟨t, ver⟩ := file
      cases ver with
      | none => rfl
      | some v => exact Option.noConfusion hv
    · intro v hv
      obtain ⟨t, ver⟩ := file
      cases ver with
      | none => exact Option.noConfusion hv
      | some w => rfl
  · unfold augmentedGetSourceFiles
    rw [List.map_map]
    refine List.map_congr_left ?_
    intro f _
    show versionFile hash (versionFile hash f) = versionFile hash f
    obtain ⟨t, ver⟩ := f
    cases ver <;> rfl

/-- C4 witness: a two-file program, one file unversioned and one already
versioned, under a concrete digest function. -/
theorem claim_versioning_idempotence_witness :
    (augmentedGetSourceFiles (fun s => s ++ "#")
        [⟨"t", none⟩, ⟨"u", some "v0"⟩]).length
      = ([⟨"t", none⟩, ⟨"u", some "v0"⟩] : List SourceFile).length
    ∧ (∀ (i : Nat) (file : SourceFile),
        ([⟨"t", none⟩, ⟨"u", some "v0"⟩] : List SourceFile)[i]? = some file →
        ∃ file1, (augmentedGetSourceFiles (fun s => s ++ "#")
            [⟨"t", none⟩, ⟨"u", some "v0"⟩])[i]? = some file1
          ∧ file1.text = file.text
          ∧ (file.version = none → file1.version = some ((fun s => s ++ "#") file.text))
          ∧ (∀ v, file.version = some v → file1 = file))
    ∧ augmentedGetSourceFiles (fun s => s ++ "#")
        (augmentedGetSourceFiles (fun s => s ++ "#") [⟨"t", none⟩, ⟨"u", some "v0"⟩])
      = augmentedGetSourceFiles (fun s => s ++ "#") [⟨"t", none⟩, ⟨"u", some "v0"⟩] :=
  claim_versioning_idempotence (fun s => s ++ "#") [⟨"t", none⟩, ⟨"u", some "v0"⟩]

/-- C5 counterexample: graph members are the raw `resolvedFileName`, not
normalized: a base resolver answering a Windows-style path makes the
wrapper record that path verbatim, and it is not a fixed point of the
normalizer. -/
theorem claim_dep_graph_normalized_cex :
    ((depCollectResolveModuleNames
        (fun _ _ (_ : Unit) => [some ⟨"C:\\lib\\pkg.ts"⟩]) [] ["pkg"] "/src/app.ts" ()).2
      = [("/src/app.ts", ["C:\\lib\\pkg.ts"])])
    ∧ normalizePath "C:\\lib\\pkg.ts" ≠ "C:\\lib\\pkg.ts" :=
  ⟨rfl, by decide⟩

/-- C5 (amended): when the graph's keys are normalized paths, both
branches of the dependency-collection wrapper keep every key a normalized
path (new edges are keyed by the normalized containing path), and every
member of every key's set either was present before the call or is the
raw `resolvedFileName` (not necessarily normalized) of a resolution that
succeeded in this call while that key was the (normalized) containing
file. -/
theorem claim_dep_graph_invariant {ρ κ : Type}
    (base : List String → String → ρ → List (Option ResolvedModule))
    (tsR : String → String → ρ → Option κ → Option ResolvedModule)
    (dependencies : DepGraph) (cache : Option κ) (moduleNames : List String)
    (containingFile : String) (p : ρ)
    (hkeys : ∀ e ∈ dependencies, normalizePath e.1 = e.1) :
    ((∀ e ∈ (depCollectResolveModuleNames base dependencies moduleNames
          containingFile p).2,
        normalizePath e.1 = e.1)
      ∧ (∀ e ∈ (depCollectResolveModuleNames base dependencies moduleNames
            containingFile p).2,
          ∀ x ∈ e.2,
            (∃ e0 ∈ dependencies, e0.1 = e.1 ∧ x ∈ e0.2)
            ∨ (e.1 = normalizePath containingFile
                ∧ ∃ r : ResolvedModule,
                    some r ∈ base moduleNames containingFile p
                    ∧ r.resolvedFileName = x)))
    ∧ ((∀ e ∈ (depCollectResolveModuleNamesFallback tsR dependencies cache moduleNames
          containingFile p).2,
        normalizePath e.1 = e.1)
      ∧ (∀ e ∈ (depCollectResolveModuleNamesFallback tsR dependencies cache moduleNames
            containingFile p).2,
          ∀ x ∈ e.2,
            (∃ e0 ∈ dependencies, e0.1 = e.1 ∧ x ∈ e0.2)
            ∨ (e.1 = normalizePath containingFile
                ∧ ∃ r : ResolvedModule,
                    (∃ n ∈ moduleNames, tsR n containingFile p cache = some r)
                    ∧ r.resolvedFileName = x))) := by
  have hb2 : (depCollectResolveModuleNames base dependencies moduleNames
      containingFile p).2
      = recordResults (normalizePath containingFile)
          (base moduleNames containingFile p) dependencies := rfl
  refine ⟨⟨?_, ?_⟩, ?_, ?_⟩
  · intro e he
    rw [hb2] at he
    rcases mem_recordResults_key (normalizePath containingFile) _ _ _ he with
      h1 | ⟨e0, he0, heq⟩
    · rw [h1, normalizePath_idem]
    · rw [← heq]
      exact hkeys e0 he0
  · intro e he x hx
    rw [hb2] at he
    exact mem_recordResults_member (normalizePath containingFile) _ _ _ _ he hx
  · intro e he
    rcases mem_depCollectFallback_key tsR cache containingFile p moduleNames
        dependencies e he with h1 | ⟨e0, he0, heq⟩
    · rw [h1, normalizePath_idem]
    · rw [← heq]
      exact hkeys e0 he0
  · intro e he x hx
    exact mem_depCollectFallback_member tsR cache containingFile p moduleNames
      dependencies e x he hx

/-- C5 witness: the amended invariant at a concrete host, starting from
the empty graph. -/
theorem claim_dep_graph_invariant_witness :
    ((∀ e ∈ (depCollectResolveModuleNames (fun _ _ (_ : Unit) => [some ⟨"lib/a.ts"⟩])
          [] ["a"] "f.ts" ()).2,
        normalizePath e.1 = e.1)
      ∧ (∀ e ∈ (depCollectResolveModuleNames (fun _ _ (_ : Unit) => [some ⟨"lib/a.ts"⟩])
            [] ["a"] "f.ts" ()).2,
          ∀ x ∈ e.2,
            (∃ e0 ∈ ([] : DepGraph), e0.1 = e.1 ∧ x ∈ e0.2)
            ∨ (e.1 = normalizePath "f.ts"
                ∧ ∃ r : ResolvedModule,
                    some r ∈ (fun _ _ (_ : Unit) => [some ⟨"lib/a.ts"⟩]) ["a"] "f.ts" ()
                    ∧ r.resolvedFileName = x)))
    ∧ ((∀ e ∈ (depCollectResolveModuleNamesFallback
          (fun _ _ (_ : Unit) (_ : Option Unit) => (none : Option ResolvedModule))
          [] none ["a"] "f.ts" ()).2,
        normalizePath e.1 = e.1)
      ∧ (∀ e ∈ (depCollectResolveModuleNamesFallback
            (fun _ _ (_ : Unit) (_ : Option Unit) => (none : Option ResolvedModule))
            [] none ["a"] "f.ts" ()).2,
          ∀ x ∈ e.2,
            (∃ e0 ∈ ([] : DepGraph), e0.1 = e.1 ∧ x ∈ e0.2)
            ∨ (e.1 = normalizePath "f.ts"
                ∧ ∃ r : ResolvedModule,
                    (∃ n ∈ (["a"] : List String),
                      (fun _ _ (_ : Unit) (_ : Option Unit) =>
                        (none : Option ResolvedModule)) n "f.ts" () none = some r)
                    ∧ r.resolvedFileName = x))) :=
  claim_dep_graph_invariant (fun _ _ _ => [some ⟨"lib/a.ts"⟩])
    (fun _ _ _ _ => none) [] none ["a"] "f.ts" ()
    (by intro e he; exact absurd he (List.not_mem_nil e))

end NgHost
